import Mathlib

/-!
Verification of the line parser and reformatter in `CodeFile.py`.

The source operates on Python strings; here a string is modelled as a
`List Char` (`Str`).  Each Python regular expression used by the source is
a fixed constant pattern; every such pattern is translated to an
executable Lean function computing the same match result, with a comment
deriving the translation from the backtracking semantics of the pattern
(lazy subpatterns try shorter matches first, greedy ones longer matches
first, `re.match` anchors at the start of the string only, `.` matches
every character except a newline, and `$` matches at the end of the
string or just before a terminating newline).
-/

namespace Fortress

abbrev Str := List Char

/-- Model of the character class `\s` of Python 3 `re` on `str` patterns:
ASCII whitespace together with the Unicode whitespace code points. -/
def pyIsSpace (c : Char) : Bool :=
  let n := c.toNat
  if n = 32 then true
  else if 9 ≤ n ∧ n ≤ 13 then true
  else if 28 ≤ n ∧ n ≤ 31 then true
  else if n = 133 ∨ n = 160 then true
  else if n = 5760 then true
  else if 8192 ≤ n ∧ n ≤ 8202 then true
  else if n = 8232 ∨ n = 8233 then true
  else if n = 8239 ∨ n = 8287 ∨ n = 12288 then true
  else false

/-- The code-point ranges of the Unicode decimal-digit category `Nd`:
the set of characters matched by the character class `\d` of Python 3
`re` on `str` patterns when no `re.ASCII` flag is given. -/
def ndRanges : List (Nat × Nat) :=
  [(48, 57), (1632, 1641), (1776, 1785), (1984, 1993), (2406, 2415),
   (2534, 2543), (2662, 2671), (2790, 2799), (2918, 2927), (3046, 3055),
   (3174, 3183), (3302, 3311), (3430, 3439), (3558, 3567), (3664, 3673),
   (3792, 3801), (3872, 3881), (4160, 4169), (4240, 4249), (6112, 6121),
   (6160, 6169), (6470, 6479), (6608, 6617), (6784, 6793), (6800, 6809),
   (6992, 7001), (7088, 7097), (7232, 7241), (7248, 7257), (42528, 42537),
   (43216, 43225), (43264, 43273), (43472, 43481), (43504, 43513),
   (43600, 43609), (44016, 44025), (65296, 65305), (66720, 66729),
   (68912, 68921), (69734, 69743), (69872, 69881), (69942, 69951),
   (70096, 70105), (70384, 70393), (70736, 70745), (70864, 70873),
   (71248, 71257), (71360, 71369), (71472, 71481), (71904, 71913),
   (72016, 72025), (72784, 72793), (73040, 73049), (73120, 73129),
   (92768, 92777), (92864, 92873), (93008, 93017), (120782, 120831),
   (123200, 123209), (123632, 123641), (125264, 125273), (130032, 130041)]

/-- Model of the character class `\d`: every Unicode decimal digit. -/
def pyIsDigit (c : Char) : Bool :=
  ndRanges.any (fun r => r.1 ≤ c.toNat ∧ c.toNat ≤ r.2)

/-- Model of the character class `\w` (used only in the word boundaries
of the block-keyword patterns): the ASCII letters, the underscore and the
decimal digits.  Python additionally accepts other Unicode letters and
marks as word characters; the keyword patterns compare their outcome only
against ASCII keyword text, where the two classes agree. -/
def isWordChar (c : Char) : Bool :=
  (65 ≤ c.toNat ∧ c.toNat ≤ 90) ∨ (97 ≤ c.toNat ∧ c.toNat ≤ 122) ∨
    pyIsDigit c ∨ c = '_'

/-- Denotation of a trailing lazy group `(.*?)$`, starting from a given
position of the subject string: `.` cannot cross a newline and `$`
matches at the end of the string or just before a final newline, so the
group matches the whole remainder when the remainder is newline-free,
matches the remainder minus a single final newline when that newline is
the only one, and otherwise the whole pattern fails and backtracking
resumes to the left. -/
def lastGroup (l : Str) : Option Str :=
  if l.contains '\n' = false then some l
  else if l.getLast? = some '\n' ∧ l.dropLast.contains '\n' = false then
    some l.dropLast
  else none

/-- `re.match(r"(.*?)(\s+)$", line)` (trailing-whitespace strip in
`parseLine`).  Group 1 is lazy and `.` cannot match a newline, so the
match succeeds exactly when the maximal trailing whitespace run is
nonempty and the text before it contains no newline; the greedy `\s+`
then always extends through a final newline, so group 2 is the full
maximal run. -/
def stripTrailing (l : Str) : Option (Str × Str) :=
  let wr := l.reverse.takeWhile pyIsSpace
  let pr := l.reverse.dropWhile pyIsSpace
  if wr = [] ∨ pr.reverse.contains '\n' then none
  else some (pr.reverse, wr.reverse)

/-- The line remaining after the trailing-whitespace strip. -/
def stripLine (s : Str) : Str :=
  match stripTrailing s with
  | some (p, _) => p
  | none => s

/-- `re.match(r"\s{0,4}(\d+)(.*?)$", line)` (fixed-form label).  The
greedy `\s{0,4}` consumes the leading whitespace run when that run has at
most four characters (on a longer run every backtracking position still
sits on a whitespace character, never on a digit, so the match fails);
group 1 is the maximal digit run that follows; group 2 is the trailing
lazy group.  The whitespace prefix is captured by no group, and the
source discards it. -/
def matchFixedLabel (l : Str) : Option (Str × Str) :=
  let w := l.takeWhile pyIsSpace
  if w.length ≤ 4 then
    let rest := l.dropWhile pyIsSpace
    let d := rest.takeWhile pyIsDigit
    if d = [] then none
    else
      match lastGroup (rest.dropWhile pyIsDigit) with
      | some r => some (d, r)
      | none => none
  else none

/-- `re.match(r"(\s+)(.*?)$", line)` (leading-whitespace strip).  Group 1
is the maximal leading whitespace run (backtracking to a shorter run
cannot rescue a failing trailing group, since prepending whitespace
characters never removes an offending interior newline). -/
def wsSplit? (l : Str) : Option (Str × Str) :=
  let w := l.takeWhile pyIsSpace
  if w = [] then none
  else
    match lastGroup (l.dropWhile pyIsSpace) with
    | some r => some (w, r)
    | none => none

/-- Worker for `re.match(r"(.*?)(\s*)(!.*?)$", line)` (trailing-comment
scan).  `acc` holds the already scanned prefix, reversed.  The lazy
group 1 stops at the first position from which the greedy `\s*` reaches a
`!` (inside the whitespace run every backtracking stop is a whitespace
character, so only the run end can carry the `!`); the scan therefore
stops at the first `!` whose preceding whitespace run is preceded by a
newline-free prefix and whose remainder admits the trailing lazy group. -/
def commentSplit : Str → Str → Option (Str × Str × Str)
  | _, [] => none
  | acc, c :: cs =>
    if c = '!' then
      match lastGroup cs with
      | some t =>
        let m := acc.takeWhile pyIsSpace
        let a := acc.dropWhile pyIsSpace
        if a.contains '\n' then commentSplit (c :: acc) cs
        else some (a.reverse, m.reverse, c :: t)
      | none => commentSplit (c :: acc) cs
    else commentSplit (c :: acc) cs

/-- `re.match(r"(.*?)(\s*)(!.*?)$", line)`: group 1 is the text before
the comment, group 2 the whitespace run just before it, group 3 the
comment itself. -/
def matchComment (l : Str) : Option (Str × Str × Str) :=
  commentSplit [] l

/-- `re.match(r"(\d+\s+)(.*?)$", line)` (free-form label): a nonempty
digit run followed by a nonempty whitespace run, both captured in
group 1. -/
def matchFreeLabel (l : Str) : Option (Str × Str) :=
  let d := l.takeWhile pyIsDigit
  if d = [] then none
  else
    let r1 := l.dropWhile pyIsDigit
    let w := r1.takeWhile pyIsSpace
    if w = [] then none
    else
      match lastGroup (r1.dropWhile pyIsSpace) with
      | some r => some (d ++ w, r)
      | none => none

/-- `re.match(r"(&\s*)(.*?)$", line)` (free-form leading continuation
marker): an ampersand and the following whitespace run, captured in
group 1. -/
def matchFreeCont (l : Str) : Option (Str × Str) :=
  match l with
  | '&' :: t =>
    let w := t.takeWhile pyIsSpace
    match lastGroup (t.dropWhile pyIsSpace) with
    | some r => some ('&' :: w, r)
    | none => none
  | _ => none

/-- The Line Record of `CodeFile.py` (`class CodeLine`), with the
attribute set built by `CodeLine.__init__`. -/
structure CodeLine where
  isFreeForm : Bool
  remarks : List String
  line : Str
  origCodeLength : Nat
  preProc : Str
  leftSpace : Str
  code : Str
  midSpace : Str
  comment : Str
  rightSpace : Str
  fixedComment : Str
  fixedLabel : Str
  fixedCont : Str
  freeLabel : Str
  freeContBeg : Str
  freeContEnd : Str
  isContinued : Bool
  isContinuation : Bool
  deriving DecidableEq, Repr

/-- `CodeLine.__init__(line, isFreeForm)`. -/
def initLine (line : Str) (isFreeForm : Bool) : CodeLine where
  isFreeForm := isFreeForm
  remarks := []
  line := line
  origCodeLength := 0
  preProc := []
  leftSpace := []
  code := []
  midSpace := []
  comment := []
  rightSpace := []
  fixedComment := []
  fixedLabel := []
  fixedCont := []
  freeLabel := []
  freeContBeg := []
  freeContEnd := []
  isContinued := false
  isContinuation := false

/-- `string[0]` as a fallible access, to model the `IndexError` a Python
string subscript can raise. -/
def lineHead (l : Str) : Except String Char :=
  match l with
  | [] => Except.error "IndexError: string index out of range"
  | c :: _ => Except.ok c

/-- `string[i]` as a fallible access. -/
def lineGet (l : Str) (i : Nat) : Except String Char :=
  match l.drop i with
  | [] => Except.error "IndexError: string index out of range"
  | c :: _ => Except.ok c

/-- The unconditional tail of `CodeLine.parseLine`: leading-whitespace
strip, trailing-comment scan, the free-form label and continuation
checks, and the final transfer of the remaining text into the code
region (including the `origCodeLength` snapshot). -/
def parseTail (cl : CodeLine) : CodeLine :=
  let cl1 := match wsSplit? cl.line with
    | some (w, r) => { cl with leftSpace := w, line := r }
    | none => cl
  let cl2 := match matchComment cl1.line with
    | some (a, m, c) => { cl1 with midSpace := m, comment := c, line := a }
    | none => cl1
  let cl3 :=
    if cl2.isFreeForm then
      let cl2a := match matchFreeLabel cl2.line with
        | some (g, r) => { cl2 with freeLabel := g, line := r }
        | none => cl2
      match matchFreeCont cl2a.line with
      | some (g, r) => { cl2a with freeContBeg := g, isContinuation := true, line := r }
      | none => cl2a
    else cl2
  { cl3 with code := cl3.line, line := [], origCodeLength := cl3.line.length }

/-- The part of `CodeLine.parseLine` after the trailing-whitespace strip:
the empty-line and preprocessor returns, the fixed-form checks (with the
two column accesses modelled as fallible subscripts; every other step of
the source is a regular-expression match, which cannot raise), and the
shared tail. -/
def parseMain (cl : CodeLine) : Except String CodeLine :=
  if cl.line = [] then Except.ok cl
  else
    match lineHead cl.line with
    | Except.error e => Except.error e
    | Except.ok c0 =>
      if c0 = '#' then Except.ok { cl with preProc := cl.line }
      else if cl.isFreeForm = false then
        if c0 = 'c' ∨ c0 = 'C' ∨ c0 = '*' ∨ c0 = '!' then
          Except.ok { cl with fixedComment := cl.line }
        else
          match matchFixedLabel cl.line with
          | some (d, r) => Except.ok (parseTail { cl with fixedLabel := d, line := r })
          | none =>
            if 5 < cl.line.length then
              match lineHead cl.line, lineGet cl.line 5 with
              | Except.ok a, Except.ok b =>
                if a ≠ '\t' ∧ b ≠ ' ' ∧ b ≠ '0' then
                  Except.ok
                    (parseTail
                      { cl with fixedCont := cl.line.take 6, isContinuation := true, line := cl.line.drop 6 })
                else Except.ok (parseTail cl)
              | Except.error e, _ => Except.error e
              | _, Except.error e => Except.error e
            else Except.ok (parseTail cl)
      else Except.ok (parseTail cl)

/-- `CodeLine.parseLine`: first the trailing-whitespace strip, then the
rest of the procedure. -/
def parseLineE (cl0 : CodeLine) : Except String CodeLine :=
  parseMain
    (match stripTrailing cl0.line with
     | some (p, w) => { cl0 with line := p, rightSpace := w }
     | none => cl0)

/-- `CodeLine.parseLine` as a total function (the fallible version is
proved below to always succeed). -/
def parseLine (cl : CodeLine) : CodeLine :=
  match parseLineE cl with
  | Except.ok c => c
  | Except.error _ => cl

/-- `CodeLine.buildFullLine`: concatenation of the regions in the fixed
canonical order. -/
def buildFullLine (cl : CodeLine) : Str :=
  cl.preProc ++ cl.fixedComment ++ cl.fixedLabel ++ cl.fixedCont ++
    cl.leftSpace ++ cl.freeLabel ++ cl.freeContBeg ++ cl.code ++
    cl.freeContEnd ++ cl.midSpace ++ cl.comment ++ cl.rightSpace

/-- `CodeLine.hasCode`. -/
def CodeLine.hasCode (cl : CodeLine) : Bool :=
  if 0 < cl.code.length then true else false

/-- `CodeLine.verifyContinuation`. -/
def verifyContinuation (cl : CodeLine) : CodeLine :=
  if cl.hasCode = false then { cl with isContinuation := false } else cl

/-- The body of the loop of `CodeFile.identifyContinuations`, for one
line: the incoming `inConti` flag comes from the lines that follow this
one in the file, and the returned flag is passed on to the physically
preceding line. -/
def identifyStep (inConti : Bool) (cl : CodeLine) : CodeLine × Bool :=
  let p := if cl.hasCode && inConti then ({ cl with isContinued := true }, false)
           else (cl, inConti)
  (p.1, if p.1.isContinuation then true else p.2)

/-- `CodeFile.identifyContinuations` as a structural recursion: the
source iterates over `reversed(self.codeLines)` carrying `inConti`
(initially false), so the suffix of the list is processed first and the
flag it produces is consumed by the line in front of it. -/
def contiAux : List CodeLine → List CodeLine × Bool
  | [] => ([], false)
  | cl :: cls =>
    let r := contiAux cls
    let s := identifyStep r.2 cl
    (s.1 :: r.1, s.2)

/-- `CodeFile.identifyContinuations`. -/
def identifyContinuations (ls : List CodeLine) : List CodeLine :=
  (contiAux ls).1

/-- Python string repetition `s * n` (empty for a non-positive count). -/
def pyStrMul (s : Str) (n : Int) : Str :=
  (List.replicate n.toNat s).flatten

/-- `CodeLine.setIndentation(level, indent)`. -/
def setIndentation (cl : CodeLine) (level : Int) (indent : Str) : CodeLine :=
  if cl.hasCode || !cl.comment.isEmpty then { cl with leftSpace := pyStrMul indent level }
  else { cl with leftSpace := [] }

/-- Case-insensitive keyword at the start of the code region followed by
a word boundary: the translation of `re.match(r"(?i)kw\b", code)` for a
keyword made of word characters. -/
def matchKwB (kw : Str) (code : Str) : Bool :=
  (code.take kw.length).map Char.toLower == kw &&
    (match code.drop kw.length with
     | [] => true
     | c :: _ => !isWordChar c)

/-- `re.match(r"(?i)(end(if|do|where)?|else(if)?)\b", code)`
(`CodeLine.decreasesIndentBefore`): the alternation with its optional
groups expands to six keyword alternatives, each followed by a word
boundary. -/
def CodeLine.decreasesIndentBefore (cl : CodeLine) : Bool :=
  ["endif".toList, "enddo".toList, "endwhere".toList, "end".toList,
   "elseif".toList, "else".toList].any (fun kw => matchKwB kw cl.code)

/-- `re.match(r"(?i)(\w+:\s+)?do\b", code)`: either `do` at the start of
the code region, or a label token `\w+:` and nonempty whitespace and then
`do` (the greedy `\w+` is the maximal word run, since any shorter run
leaves a word character where the `:` is required). -/
def matchDoLine (code : Str) : Bool :=
  matchKwB "do".toList code ||
    (let w := code.takeWhile isWordChar
     !w.isEmpty &&
       (match code.drop w.length with
        | ':' :: rest =>
          !(rest.takeWhile pyIsSpace).isEmpty &&
            matchKwB "do".toList (rest.dropWhile pyIsSpace)
        | _ => false))

/-- `re.match(r"(?i)if\b.*?\bthen\b", code)`: `if` with a word boundary,
then some later occurrence of `then` delimited by word boundaries on both
sides, with no newline in between (`.` cannot cross one). -/
def matchIfThen (code : Str) : Bool :=
  matchKwB "if".toList code &&
    (let t := code.drop 2
     (List.range (t.length + 1)).any (fun i =>
       !(t.take i).contains '\n' &&
         ((t.take i).getLast?.elim false (fun c => !isWordChar c)) &&
         matchKwB "then".toList (t.drop i)))

/-- `re.match(r"(?i)type\s*[^\s\(]", code)`: `type`, an optional
whitespace run, then one character that is neither whitespace nor an
opening parenthesis (the greedy `\s*` must be the maximal run, since
every backtracking position inside it holds a whitespace character,
which the class refuses; the first character after the run is non-blank
by construction, so only the parenthesis must be excluded). -/
def matchTypeLine (code : Str) : Bool :=
  (code.take 4).map Char.toLower == "type".toList &&
    (match (code.drop 4).dropWhile pyIsSpace with
     | [] => false
     | c :: _ => c ≠ '(')

/-- `re.match(r"(?i)block\s?data\b", code)`: `block`, an optional single
whitespace character, then `data` with a word boundary. -/
def matchBlockData (code : Str) : Bool :=
  (code.take 5).map Char.toLower == "block".toList &&
    (let r := code.drop 5
     matchKwB "data".toList r ||
       (r.head?.elim false pyIsSpace && matchKwB "data".toList (r.drop 1)))

/-- `re.match(r"(?i)where\b.*?\)$", code)`: `where` with a word boundary,
then a lazy gap without newlines, then a closing parenthesis at the end
of the code region (or just before a terminating newline). -/
def matchWhereParen (code : Str) : Bool :=
  matchKwB "where".toList code &&
    (let t := code.drop 5
     let core := if t.getLast? = some '\n' then t.dropLast else t
     core.getLast? = some ')' && !core.dropLast.contains '\n')

/-- `CodeLine.increasesIndentAfter`: the disjunction of the ten
block-opening patterns, in source order. -/
def CodeLine.increasesIndentAfter (cl : CodeLine) : Bool :=
  matchDoLine cl.code || matchIfThen cl.code ||
    matchKwB "subroutine".toList cl.code || matchKwB "module".toList cl.code ||
    matchTypeLine cl.code || matchKwB "interface".toList cl.code ||
    matchBlockData cl.code || matchKwB "function".toList cl.code ||
    matchWhereParen cl.code ||
    matchKwB "elseif".toList cl.code || matchKwB "else".toList cl.code

/-- The clamped depth that `CodeFile.fixIndentation` uses when writing a
line's indentation: the running depth, decremented first when the line
closes a block, then reset to zero if that made it negative. -/
def writeDepth (cl : CodeLine) (cur : Int) : Int :=
  let c1 := if cl.decreasesIndentBefore then cur - 1 else cur
  if c1 < 0 then 0 else c1

/-- The body of the loop of `CodeFile.fixIndentation`, for one line. -/
def fixIndentStep (indent : Str) (contiIndent : Nat) (cur : Int) (cl : CodeLine) :
    CodeLine × Int :=
  let cur1 := if cl.decreasesIndentBefore then cur - 1 else cur
  let p := if cur1 < 0 then
      ({ cl with remarks := cl.remarks ++ ["Negative indentation level reached."] }, (0 : Int))
    else (cl, cur1)
  let cl2 := setIndentation p.1 (p.2 + (if p.1.isContinuation then (contiIndent : Int) else 0)) indent
  let cur2 := if cl2.increasesIndentAfter then p.2 + 1 else p.2
  (cl2, cur2)

/-- The loop of `CodeFile.fixIndentation`, threading the running depth. -/
def fixIndentGo (indent : Str) (contiIndent : Nat) : Int → List CodeLine → List CodeLine × Int
  | cur, [] => ([], cur)
  | cur, cl :: cls =>
    let s := fixIndentStep indent contiIndent cur cl
    let r := fixIndentGo indent contiIndent s.2 cls
    (s.1 :: r.1, r.2)

/-- `CodeFile.fixIndentation(indent, contiIndent)`: the running depth
starts at zero. -/
def fixIndentation (indent : Str) (contiIndent : Nat) (ls : List CodeLine) : List CodeLine :=
  (fixIndentGo indent contiIndent 0 ls).1

/-- `CodeLine.convertFixedToFree`. -/
def convertFixedToFree (cl : CodeLine) : CodeLine :=
  if cl.isFreeForm then cl
  else
    let cl0 := { cl with isFreeForm := true }
    if cl0.fixedComment ≠ [] then
      let stripped := (cl0.fixedComment.drop 1).dropWhile pyIsSpace
      let cl1 := if stripped ≠ [] then { cl0 with comment := '!' :: ' ' :: stripped } else cl0
      { cl1 with fixedComment := [] }
    else
      let cl1 := if cl0.fixedLabel ≠ [] then
          { cl0 with freeLabel := cl0.fixedLabel ++ [' '], fixedLabel := [] }
        else cl0
      let cl2 := if cl1.fixedCont ≠ [] then
          { (if cl1.isContinuation then { cl1 with freeContBeg := ['&'] } else cl1) with fixedCont := [] }
        else cl1
      if cl2.isContinued then { cl2 with freeContEnd := ['&'] } else cl2

/-- `CodeLine.swallowLengthChange`. -/
def swallowLengthChange (cl : CodeLine) : CodeLine :=
  if cl.comment.length = 0 ∨ cl.hasCode = false then cl
  else
    let lengthChange : Int := (cl.code.length : Int) - (cl.origCodeLength : Int)
    if lengthChange = 0 then cl
    else
      let numLeftSpaces : Int := max 1 ((cl.midSpace.length : Int) - lengthChange)
      { cl with midSpace := List.replicate numLeftSpaces.toNat ' ' }

/-- The remainder check `\s+c$` shared by the doxygen patterns: a
nonempty greedy whitespace run, then `c` at the end of the string or just
before a terminating newline. -/
def wsC (u : Str) : Bool :=
  !(u.takeWhile pyIsSpace).isEmpty &&
    (u.dropWhile pyIsSpace == ['c'] || u.dropWhile pyIsSpace == ['c', '\n'])

/-- `re.match(r"!\s(\S+\.\S+)\s+c$", comment)` (doxygen file-name line).
Group 1 contains no whitespace, so the `\s+` run must be the whole
maximal whitespace run before the final `c`; the group needs an interior
dot. -/
def matchDoxFile (s : Str) : Option Str :=
  match s with
  | b :: w :: rest =>
    if b = '!' ∧ pyIsSpace w then
      let core := if rest.getLast? = some '\n' then rest.dropLast else rest
      if core.getLast? = some 'c' then
        let pre := core.dropLast
        let w2 := (pre.reverse.takeWhile pyIsSpace).reverse
        let g := (pre.reverse.dropWhile pyIsSpace).reverse
        if w2 ≠ [] ∧ g ≠ [] ∧ g.all (fun c => !pyIsSpace c) ∧ ((g.drop 1).dropLast).contains '.'
        then some g else none
      else none
    else none
  | _ => none

/-- `re.match(r"!\s>\s+\\(param.*?)$", comment)` (doxygen parameter
line). -/
def matchDoxParam (s : Str) : Option Str :=
  match s with
  | b :: w :: '>' :: rest =>
    if b = '!' ∧ pyIsSpace w then
      if (rest.takeWhile pyIsSpace).isEmpty then none
      else
        match rest.dropWhile pyIsSpace with
        | '\\' :: t =>
          if t.take 5 = "param".toList then
            (lastGroup (t.drop 5)).map (fun r => "param".toList ++ r)
          else none
        | _ => none
    else none
  | _ => none

/-- The ten fixed characters of the date group `(\d{4}\.\d{2}\.\d{2})`. -/
def dateShape (d : Str) : Bool :=
  match d with
  | [a, b, c, e, p1, f, g, p2, h, i] =>
    pyIsDigit a && pyIsDigit b && pyIsDigit c && pyIsDigit e && p1 = '.' &&
      pyIsDigit f && pyIsDigit g && p2 = '.' && pyIsDigit h && pyIsDigit i
  | _ => false

/-- Lazy scan for `(.*?)\s+c$`: the group grows one character at a time
(never across a newline) until the remainder is exactly a nonempty
whitespace run followed by the final `c`. -/
def scanWsC : Str → Str → Option Str
  | acc, u =>
    if wsC u then some acc.reverse
    else
      match u with
      | [] => none
      | c :: cs => if c = '\n' then none else scanWsC (c :: acc) cs

/-- `re.match(r"!\s(\d{4}\.\d{2}\.\d{2})\s-\s(.*?)\s+c$", comment)`
(doxygen dated-changelog line). -/
def matchDoxDate (s : Str) : Option (Str × Str) :=
  match s with
  | b :: w :: rest =>
    if b = '!' ∧ pyIsSpace w then
      let d := rest.take 10
      if dateShape d then
        match rest.drop 10 with
        | w1 :: '-' :: w2 :: u =>
          if pyIsSpace w1 ∧ pyIsSpace w2 then (scanWsC [] u).map (fun g2 => (d, g2))
          else none
        | _ => none
      else none
    else none
  | _ => none

/-- Lazy scan for `.*?\]\s+c$` (the part of the author pattern after the
mail-address group): stop at the first `]` whose remainder is `\s+c$`;
a failing `]` can be swallowed by the lazy group and the scan goes on. -/
def scanBr : Str → Str → Option Str
  | _, [] => none
  | acc, c :: cs =>
    if c = ']' && wsC cs then some acc.reverse
    else if c = '\n' then none
    else scanBr (c :: acc) cs

/-- Lazy scan for `.*?\.` followed by `scanBr`: stop at the first dot
from which the rest of the pattern succeeds. -/
def scanDot : Str → Str → Option (Str × Str)
  | _, [] => none
  | acc, c :: cs =>
    if c = '.' then
      match scanBr [] cs with
      | some cc => some (acc.reverse, cc)
      | none => scanDot (c :: acc) cs
    else if c = '\n' then none
    else scanDot (c :: acc) cs

/-- Lazy scan for `.*?@` followed by `scanDot`: stop at the first at-sign
from which the rest of the pattern succeeds. -/
def scanAt : Str → Str → Option (Str × Str × Str)
  | _, [] => none
  | acc, c :: cs =>
    if c = '@' then
      match scanDot [] cs with
      | some (bb, cc) => some (acc.reverse, bb, cc)
      | none => scanAt (c :: acc) cs
    else if c = '\n' then none
    else scanAt (c :: acc) cs

/-- Lazy scan for the leading `(.*?)\s\[` of the author pattern: the
group grows one character at a time until a single whitespace character
and an opening bracket lead into a successful mail-address tail. -/
def scanG1 : Str → Str → Option (Str × Str × Str × Str)
  | _, [] => none
  | acc, c :: cs =>
    let probe : Option (Str × Str × Str) :=
      if pyIsSpace c then
        match cs with
        | '[' :: v => scanAt [] v
        | _ => none
      else none
    match probe with
    | some (a, bb, cc) => some (acc.reverse, a, bb, cc)
    | none => if c = '\n' then none else scanG1 (c :: acc) cs

/-- `re.match(r"!\s(.*?)\s\[(.*?@.*?\..*?)\]\s+c$", comment)` (doxygen
author/email line); the second component assembles group 2. -/
def matchDoxAuthor (s : Str) : Option (Str × Str) :=
  match s with
  | b :: w :: u =>
    if b = '!' ∧ pyIsSpace w then
      (scanG1 [] u).map (fun r => (r.1, r.2.1 ++ '@' :: (r.2.2.1 ++ '.' :: r.2.2.2)))
    else none
  | _ => none

/-- The in-block rewriting of one comment in
`CodeFile.transformDoxygenBlocks`: the five recognized sub-patterns are
tried in source order, and an unrecognized comment becomes a brief tag. -/
def doxygenRewrite (c : Str) : Str :=
  if c.count '-' = 60 then "!>".toList
  else
    match matchDoxFile c with
    | some g => "!> @file ".toList ++ g
    | none =>
      match matchDoxParam c with
      | some g => "!> @".toList ++ g
      | none =>
        match matchDoxDate c with
        | some (d, t) => "!> @date ".toList ++ d ++ " -- ".toList ++ t
        | none =>
          match matchDoxAuthor c with
          | some (n, m) => "!> @authors ".toList ++ n ++ " <".toList ++ m ++ ['>']
          | none => "!> @brief ".toList ++ (c.drop 3).dropWhile pyIsSpace

/-- The body of the loop of `CodeFile.transformDoxygenBlocks`, for one
line: a comment holding exactly seventy `c` characters toggles the
in-block state and becomes a canonical separator; otherwise, inside a
block, the comment is rewritten. -/
def transformDoxygenLine (length : Nat) (inBlock : Bool) (cl : CodeLine) : Bool × CodeLine :=
  if cl.comment.count 'c' = 70 then
    (!inBlock, { cl with comment := '!' :: List.replicate (length - 1) '-' })
  else if inBlock then (inBlock, { cl with comment := doxygenRewrite cl.comment })
  else (inBlock, cl)

/-- The loop of `CodeFile.transformDoxygenBlocks`, threading the state. -/
def transformDoxygenGo (length : Nat) : Bool → List CodeLine → List CodeLine
  | _, [] => []
  | b, cl :: cls =>
    let s := transformDoxygenLine length b cl
    s.2 :: transformDoxygenGo length s.1 cls

/-- `CodeFile.transformDoxygenBlocks(length)`: the state starts outside a
block. -/
def transformDoxygenBlocks (length : Nat) (ls : List CodeLine) : List CodeLine :=
  transformDoxygenGo length false ls

/-! ### Helper lemmas about the match functions -/

theorem contains_eq_false {x : Str} {c : Char} : x.contains c = false ↔ c ∉ x := by
  rw [Bool.eq_false_iff]
  exact not_congr List.elem_iff

theorem lastGroup_eq_some {l : Str} (h : '\n' ∉ l) : lastGroup l = some l := by
  unfold lastGroup
  rw [contains_eq_false.mpr h]
  simp

theorem stripTrailing_append {l p w : Str} (h : stripTrailing l = some (p, w)) :
    p ++ w = l := by
  unfold stripTrailing at h
  dsimp only at h
  split at h
  · exact absurd h (by simp)
  · injection h with h
    injection h with h1 h2
    subst h1; subst h2
    rw [← List.reverse_append, List.takeWhile_append_dropWhile, List.reverse_reverse]

theorem stripTrailing_some_no_nl {l p w : Str} (h : stripTrailing l = some (p, w)) :
    '\n' ∉ p := by
  unfold stripTrailing at h
  dsimp only at h
  split at h
  · exact absurd h (by simp)
  · rename_i hc
    injection h with h
    injection h with h1 _
    subst h1
    rw [not_or] at hc
    intro hmem
    exact hc.2 (List.elem_iff.mpr hmem)

theorem not_mem_of_append_left {l a b : Str} {c : Char} (h : a ++ b = l) (hl : c ∉ l) :
    c ∉ a := by
  subst h
  intro hc
  exact hl (List.mem_append.mpr (Or.inl hc))

theorem not_mem_of_append_right {l a b : Str} {c : Char} (h : a ++ b = l) (hl : c ∉ l) :
    c ∉ b := by
  subst h
  intro hc
  exact hl (List.mem_append.mpr (Or.inr hc))

theorem mem_of_append_right {l a b : Str} {c : Char} (h : a ++ b = l) (hc : c ∈ b) :
    c ∈ l := by
  subst h
  exact List.mem_append.mpr (Or.inr hc)

theorem stripTrailing_none_no_nl {l : Str} (hraw : '\n' ∉ l.dropLast)
    (h : stripTrailing l = none) : '\n' ∉ l := by
  intro hmem
  -- the newline must be the last character of the line
  have hlast : l.getLast? = some '\n' := by
    rcases List.eq_nil_or_concat l with rfl | ⟨l', a, rfl⟩
    · simp at hmem
    · rw [List.concat_eq_append] at hmem hraw ⊢
      rw [List.getLast?_append_cons]
      rw [(by simp : (l' ++ [a]).dropLast = l')] at hraw
      rw [List.mem_append] at hmem
      rcases hmem with hmem | hmem
      · exact absurd hmem hraw
      · simp only [List.mem_singleton] at hmem
        subst hmem
        simp
  -- hence the reversed line starts with a whitespace character
  have hrev : l.reverse.takeWhile pyIsSpace ≠ [] := by
    rcases List.eq_nil_or_concat l with rfl | ⟨l', a, rfl⟩
    · simp at hmem
    · have ha : a = '\n' := by
        rw [List.concat_eq_append, List.getLast?_append_cons] at hlast
        simpa using hlast
      subst ha
      rw [List.concat_eq_append, List.reverse_append]
      simp [List.takeWhile_cons, pyIsSpace]
  -- and the part before the trailing whitespace run contains no newline
  have hpr : ((l.reverse.dropWhile pyIsSpace).reverse).contains '\n' = false := by
    rw [contains_eq_false]
    intro hc
    rw [List.mem_reverse] at hc
    rcases List.eq_nil_or_concat l with rfl | ⟨l', a, rfl⟩
    · simp at hmem
    · have ha : a = '\n' := by
        rw [List.concat_eq_append, List.getLast?_append_cons] at hlast
        simpa using hlast
      subst ha
      rw [List.concat_eq_append, List.reverse_append] at hc
      simp only [List.reverse_cons, List.reverse_nil, List.nil_append,
        List.singleton_append, List.dropWhile_cons] at hc
      rw [if_pos (by simp [pyIsSpace])] at hc
      have hmem' : '\n' ∈ l'.reverse :=
        mem_of_append_right (List.takeWhile_append_dropWhile pyIsSpace l'.reverse) hc
      rw [List.mem_reverse] at hmem'
      rw [List.concat_eq_append] at hraw
      exact absurd (by simpa using hmem') (by simpa using hraw)
  -- so the strip succeeds, contradicting the hypothesis
  unfold stripTrailing at h
  dsimp only at h
  rw [if_neg] at h
  · exact absurd h (by simp)
  · rw [not_or]
    refine ⟨hrev, fun hcc => ?_⟩
    rw [hpr] at hcc
    exact absurd hcc (by simp)

theorem wsSplit?_append {l w r : Str} (hl : '\n' ∉ l)
    (h : wsSplit? l = some (w, r)) : w ++ r = l := by
  unfold wsSplit? at h
  dsimp only at h
  have hdw : '\n' ∉ l.dropWhile pyIsSpace :=
    not_mem_of_append_right (List.takeWhile_append_dropWhile pyIsSpace l) hl
  rw [lastGroup_eq_some hdw] at h
  dsimp only at h
  split at h
  · exact absurd h (by simp)
  · injection h with h
    injection h with h1 h2
    subst h1; subst h2
    exact List.takeWhile_append_dropWhile pyIsSpace l

theorem matchFixedLabel_append {l d r : Str} (hl : '\n' ∉ l)
    (h : matchFixedLabel l = some (d, r)) :
    l.takeWhile pyIsSpace ++ (d ++ r) = l := by
  unfold matchFixedLabel at h
  dsimp only at h
  split at h
  · have hdw : '\n' ∉ l.dropWhile pyIsSpace :=
      not_mem_of_append_right (List.takeWhile_append_dropWhile pyIsSpace l) hl
    have hdd : '\n' ∉ (l.dropWhile pyIsSpace).dropWhile pyIsDigit :=
      not_mem_of_append_right (List.takeWhile_append_dropWhile pyIsDigit _) hdw
    rw [lastGroup_eq_some hdd] at h
    split at h
    · exact absurd h (by simp)
    · injection h with h
      injection h with h1 h2
      subst h1; subst h2
      rw [List.takeWhile_append_dropWhile, List.takeWhile_append_dropWhile]
  · exact absurd h (by simp)

theorem matchFreeLabel_append {l g r : Str} (hl : '\n' ∉ l)
    (h : matchFreeLabel l = some (g, r)) : g ++ r = l := by
  unfold matchFreeLabel at h
  dsimp only at h
  split at h
  · exact absurd h (by simp)
  · split at h
    · exact absurd h (by simp)
    · have hdw : '\n' ∉ l.dropWhile pyIsDigit :=
        not_mem_of_append_right (List.takeWhile_append_dropWhile pyIsDigit l) hl
      have hdd : '\n' ∉ (l.dropWhile pyIsDigit).dropWhile pyIsSpace :=
        not_mem_of_append_right (List.takeWhile_append_dropWhile pyIsSpace _) hdw
      rw [lastGroup_eq_some hdd] at h
      injection h with h
      injection h with h1 h2
      subst h1; subst h2
      rw [List.append_assoc, List.takeWhile_append_dropWhile, List.takeWhile_append_dropWhile]

theorem matchFreeCont_append {l g r : Str} (hl : '\n' ∉ l)
    (h : matchFreeCont l = some (g, r)) : g ++ r = l := by
  unfold matchFreeCont at h
  split at h
  · rename_i t
    have ht : '\n' ∉ t := fun hc => hl (List.mem_cons_of_mem _ hc)
    have hdd : '\n' ∉ t.dropWhile pyIsSpace :=
      not_mem_of_append_right (List.takeWhile_append_dropWhile pyIsSpace t) ht
    dsimp only at h
    rw [lastGroup_eq_some hdd] at h
    injection h with h
    injection h with h1 h2
    subst h1; subst h2
    simp only [List.cons_append]
    rw [List.takeWhile_append_dropWhile]
  · exact absurd h (by simp)

theorem commentSplit_append : ∀ (l acc : Str), '\n' ∉ l →
    ∀ {a m c : Str}, commentSplit acc l = some (a, m, c) → a ++ m ++ c = acc.reverse ++ l := by
  intro l
  induction l with
  | nil =>
    intro acc _ a m c h
    exact absurd h (by simp [commentSplit])
  | cons x xs ih =>
    intro acc hl a m c h
    have hxs : '\n' ∉ xs := fun hc => hl (List.mem_cons_of_mem _ hc)
    rw [commentSplit] at h
    split at h
    · rename_i hx
      subst hx
      rw [lastGroup_eq_some hxs] at h
      dsimp only at h
      split at h
      · have := ih ('!' :: acc) hxs h
        simpa using this
      · injection h with h
        injection h with h1 h
        injection h with h2 h3
        subst h1; subst h2; subst h3
        rw [← List.reverse_append, List.takeWhile_append_dropWhile]
    · rename_i hx
      have := ih (x :: acc) hxs h
      simpa using this

theorem matchComment_append {l a m c : Str} (hl : '\n' ∉ l)
    (h : matchComment l = some (a, m, c)) : a ++ m ++ c = l := by
  have := commentSplit_append l [] hl h
  simpa using this


/-! ### The parser never raises -/

theorem lineHead_ok {l : Str} (h : l ≠ []) : ∃ c, lineHead l = Except.ok c := by
  cases l with
  | nil => exact absurd rfl h
  | cons c cs => exact ⟨c, rfl⟩

theorem lineGet_ok {l : Str} {i : Nat} (h : i < l.length) : ∃ c, lineGet l i = Except.ok c := by
  unfold lineGet
  cases hd : l.drop i with
  | nil =>
    have := List.drop_eq_nil_iff.mp hd
    omega
  | cons c cs => exact ⟨c, rfl⟩

theorem parseMain_ok (cl : CodeLine) : ∃ c, parseMain cl = Except.ok c := by
  unfold parseMain
  split
  · exact ⟨_, rfl⟩
  · rename_i hne
    obtain ⟨c0, hc0⟩ := lineHead_ok hne
    rw [hc0]
    dsimp only
    split
    · exact ⟨_, rfl⟩
    · split
      · split
        · exact ⟨_, rfl⟩
        · split
          · exact ⟨_, rfl⟩
          · split
            · rename_i h5
              obtain ⟨b, hb⟩ := lineGet_ok (l := cl.line) (i := 5) h5
              rw [hb]
              dsimp only
              split
              · exact ⟨_, rfl⟩
              · exact ⟨_, rfl⟩
            · exact ⟨_, rfl⟩
      · exact ⟨_, rfl⟩

theorem parseLineE_eq_ok (cl0 : CodeLine) : parseLineE cl0 = Except.ok (parseLine cl0) := by
  obtain ⟨c, hc⟩ := parseMain_ok
    (match stripTrailing cl0.line with
     | some (p, w) => { cl0 with line := p, rightSpace := w }
     | none => cl0)
  have h1 : parseLineE cl0 = Except.ok c := by
    unfold parseLineE
    exact hc
  rw [h1]
  unfold parseLine
  rw [h1]

/-! ### Round-trip reconstruction -/

theorem buildFullLine_parseTail (cl : CodeLine)
    (h1 : cl.leftSpace = []) (h2 : cl.midSpace = []) (h3 : cl.comment = [])
    (h4 : cl.freeLabel = []) (h5 : cl.freeContBeg = []) (h6 : cl.freeContEnd = [])
    (hnl : '\n' ∉ cl.line) :
    buildFullLine (parseTail cl) =
      cl.preProc ++ cl.fixedComment ++ cl.fixedLabel ++ cl.fixedCont ++ cl.line ++ cl.rightSpace := by
  unfold parseTail
  cases hws : wsSplit? cl.line with
  | none =>
    dsimp only
    cases hmc : matchComment cl.line with
    | none =>
      dsimp only
      by_cases hff : cl.isFreeForm
      · rw [if_pos hff]
        cases hml : matchFreeLabel cl.line with
        | none =>
          dsimp only
          cases hmf : matchFreeCont cl.line with
          | none =>
            simp [buildFullLine, h1, h2, h3, h4, h5, h6]
          | some pf =>
            obtain ⟨g2, r2⟩ := pf
            have eg := matchFreeCont_append hnl hmf
            simp [buildFullLine, h1, h2, h3, h4, h6, ← eg]
        | some pl =>
          obtain ⟨g1, r1⟩ := pl
          have el := matchFreeLabel_append hnl hml
          have hr1 : '\n' ∉ r1 := not_mem_of_append_right el hnl
          dsimp only
          cases hmf : matchFreeCont r1 with
          | none =>
            simp [buildFullLine, h1, h2, h3, h5, h6, ← el]
          | some pf =>
            obtain ⟨g2, r2⟩ := pf
            have eg := matchFreeCont_append hr1 hmf
            simp [buildFullLine, h1, h2, h3, h6, ← el, ← eg]
      · rw [if_neg hff]
        simp [buildFullLine, h1, h2, h3, h4, h5, h6]
    | some tr =>
      obtain ⟨a, m, cm⟩ := tr
      have ec := matchComment_append hnl hmc
      have ham : '\n' ∉ a ++ m := not_mem_of_append_left ec hnl
      have ha : '\n' ∉ a := not_mem_of_append_left rfl ham
      dsimp only
      by_cases hff : cl.isFreeForm
      · rw [if_pos hff]
        cases hml : matchFreeLabel a with
        | none =>
          dsimp only
          cases hmf : matchFreeCont a with
          | none =>
            simp [buildFullLine, h1, h4, h5, h6, ← ec]
          | some pf =>
            obtain ⟨g2, r2⟩ := pf
            have eg := matchFreeCont_append ha hmf
            simp [buildFullLine, h1, h4, h6, ← ec, ← eg]
        | some pl =>
          obtain ⟨g1, r1⟩ := pl
          have el := matchFreeLabel_append ha hml
          have hr1 : '\n' ∉ r1 := not_mem_of_append_right el ha
          dsimp only
          cases hmf : matchFreeCont r1 with
          | none =>
            simp [buildFullLine, h1, h5, h6, ← ec, ← el]
          | some pf =>
            obtain ⟨g2, r2⟩ := pf
            have eg := matchFreeCont_append hr1 hmf
            simp [buildFullLine, h1, h6, ← ec, ← el, ← eg]
      · rw [if_neg hff]
        simp [buildFullLine, h1, h4, h5, h6, ← ec]
  | some pw =>
    obtain ⟨w, r0⟩ := pw
    have ew := wsSplit?_append hnl hws
    have hr0 : '\n' ∉ r0 := not_mem_of_append_right ew hnl
    dsimp only
    cases hmc : matchComment r0 with
    | none =>
      dsimp only
      by_cases hff : cl.isFreeForm
      · rw [if_pos hff]
        cases hml : matchFreeLabel r0 with
        | none =>
          dsimp only
          cases hmf : matchFreeCont r0 with
          | none =>
            simp [buildFullLine, h2, h3, h4, h5, h6, ← ew]
          | some pf =>
            obtain ⟨g2, r2⟩ := pf
            have eg := matchFreeCont_append hr0 hmf
            simp [buildFullLine, h2, h3, h4, h6, ← ew, ← eg]
        | some pl =>
          obtain ⟨g1, r1⟩ := pl
          have el := matchFreeLabel_append hr0 hml
          have hr1 : '\n' ∉ r1 := not_mem_of_append_right el hr0
          dsimp only
          cases hmf : matchFreeCont r1 with
          | none =>
            simp [buildFullLine, h2, h3, h5, h6, ← ew, ← el]
          | some pf =>
            obtain ⟨g2, r2⟩ := pf
            have eg := matchFreeCont_append hr1 hmf
            simp [buildFullLine, h2, h3, h6, ← ew, ← el, ← eg]
      · rw [if_neg hff]
        simp [buildFullLine, h2, h3, h4, h5, h6, ← ew]
    | some tr =>
      obtain ⟨a, m, cm⟩ := tr
      have ec := matchComment_append hr0 hmc
      have ham : '\n' ∉ a ++ m := not_mem_of_append_left ec hr0
      have ha : '\n' ∉ a := not_mem_of_append_left rfl ham
      dsimp only
      by_cases hff : cl.isFreeForm
      · rw [if_pos hff]
        cases hml : matchFreeLabel a with
        | none =>
          dsimp only
          cases hmf : matchFreeCont a with
          | none =>
            simp [buildFullLine, h4, h5, h6, ← ew, ← ec]
          | some pf =>
            obtain ⟨g2, r2⟩ := pf
            have eg := matchFreeCont_append ha hmf
            simp [buildFullLine, h4, h6, ← ew, ← ec, ← eg]
        | some pl =>
          obtain ⟨g1, r1⟩ := pl
          have el := matchFreeLabel_append ha hml
          have hr1 : '\n' ∉ r1 := not_mem_of_append_right el ha
          dsimp only
          cases hmf : matchFreeCont r1 with
          | none =>
            simp [buildFullLine, h5, h6, ← ew, ← ec, ← el]
          | some pf =>
            obtain ⟨g2, r2⟩ := pf
            have eg := matchFreeCont_append hr1 hmf
            simp [buildFullLine, h6, ← ew, ← ec, ← el, ← eg]
      · rw [if_neg hff]
        simp [buildFullLine, h4, h5, h6, ← ew, ← ec]

theorem buildFullLine_parseMain (cl : CodeLine)
    (hpre : cl.preProc = []) (hfc : cl.fixedComment = []) (hfl : cl.fixedLabel = [])
    (hfct : cl.fixedCont = [])
    (h1 : cl.leftSpace = []) (h2 : cl.midSpace = []) (h3 : cl.comment = [])
    (h4 : cl.freeLabel = []) (h5 : cl.freeContBeg = []) (h6 : cl.freeContEnd = [])
    (hcode : cl.code = []) (hnl : '\n' ∉ cl.line)
    (hfix : cl.isFreeForm = false →
      (cl.line.takeWhile pyIsSpace = [] ∨ matchFixedLabel cl.line = none)) :
    ∀ c, parseMain cl = Except.ok c → buildFullLine c = cl.line ++ cl.rightSpace := by
  intro c hc
  unfold parseMain at hc
  split at hc
  · -- blank line: nothing more is parsed
    rename_i hemp
    injection hc with hc
    subst hc
    simp [buildFullLine, hpre, hfc, hfl, hfct, h1, h2, h3, h4, h5, h6, hcode, hemp]
  · rename_i hemp
    obtain ⟨c0, heq⟩ := lineHead_ok hemp
    rw [heq] at hc
    dsimp only at hc
    split at hc
    · -- preprocessor line
      injection hc with hc
      subst hc
      simp [buildFullLine, hfc, hfl, hfct, h1, h2, h3, h4, h5, h6, hcode, hpre]
    · split at hc
      · rename_i hff
        split at hc
        · -- fixed-form full-line comment
          injection hc with hc
          subst hc
          simp [buildFullLine, hpre, hfl, hfct, h1, h2, h3, h4, h5, h6, hcode, hfc]
        · revert hc
          cases hlab : matchFixedLabel cl.line with
          | some dr =>
            -- fixed-form label
            obtain ⟨d, r⟩ := dr
            dsimp only
            intro hc
            injection hc with hc
            subst hc
            have elbl := matchFixedLabel_append hnl hlab
            have hw0 : cl.line.takeWhile pyIsSpace = [] := by
              rcases hfix hff with hw0 | hnone
              · exact hw0
              · rw [hnone] at hlab
                exact absurd hlab (by simp)
            rw [hw0, List.nil_append] at elbl
            have hr : '\n' ∉ r := by
              have hdr : '\n' ∉ d ++ r := by rw [elbl]; exact hnl
              exact not_mem_of_append_right rfl hdr
            rw [buildFullLine_parseTail _ (by simp [h1]) (by simp [h2]) (by simp [h3])
              (by simp [h4]) (by simp [h5]) (by simp [h6]) (by simpa using hr)]
            simp [hpre, hfc, hfct, ← elbl]
          | none =>
            dsimp only
            intro hc
            split at hc
            · -- fixed-form continuation marker check
              rename_i h5len
              obtain ⟨b, hb⟩ := lineGet_ok (l := cl.line) (i := 5) h5len
              rw [hb] at hc
              dsimp only at hc
              split at hc
              · injection hc with hc
                subst hc
                have hdrop : '\n' ∉ cl.line.drop 6 :=
                  not_mem_of_append_right (List.take_append_drop 6 cl.line) hnl
                rw [buildFullLine_parseTail _ (by simp [h1]) (by simp [h2]) (by simp [h3])
                  (by simp [h4]) (by simp [h5]) (by simp [h6]) (by simpa using hdrop)]
                simp [hpre, hfc, hfl, List.take_append_drop]
              · injection hc with hc
                subst hc
                rw [buildFullLine_parseTail _ h1 h2 h3 h4 h5 h6 hnl]
                simp [hpre, hfc, hfl, hfct]
            · injection hc with hc
              subst hc
              rw [buildFullLine_parseTail _ h1 h2 h3 h4 h5 h6 hnl]
              simp [hpre, hfc, hfl, hfct]
      · -- free form: straight to the shared tail
        injection hc with hc
        subst hc
        rw [buildFullLine_parseTail _ h1 h2 h3 h4 h5 h6 hnl]
        simp [hpre, hfc, hfl, hfct]

/-- Claim C1 (amended): for a raw input line (a string whose only
newline, if any, terminates it), parsing with `parseLine` and rebuilding
with `buildFullLine` restores the line exactly, provided that in fixed
layout the statement-label pattern does not match the stripped line with
a nonempty whitespace prefix (the source drops that prefix). -/
theorem parse_build_roundtrip (s : Str) (ff : Bool)
    (hline : '\n' ∉ s.dropLast)
    (hfix : ff = false →
      ((stripLine s).takeWhile pyIsSpace = [] ∨ matchFixedLabel (stripLine s) = none)) :
    buildFullLine (parseLine (initLine s ff)) = s := by
  have hok := parseLineE_eq_ok (initLine s ff)
  unfold parseLineE at hok
  have hline_eq : (initLine s ff).line = s := rfl
  rw [hline_eq] at hok
  cases hst : stripTrailing s with
  | none =>
    rw [hst] at hok
    dsimp only at hok
    have hnl : '\n' ∉ s := stripTrailing_none_no_nl hline hst
    have hsl : stripLine s = s := by unfold stripLine; rw [hst]
    have hb := buildFullLine_parseMain (initLine s ff) rfl rfl rfl rfl rfl rfl rfl rfl rfl
      rfl rfl (by exact hnl)
      (by
        intro hf
        have := hfix hf
        rw [hsl] at this
        exact this)
      (parseLine (initLine s ff)) hok
    simpa [initLine] using hb
  | some pw =>
    obtain ⟨p, w⟩ := pw
    rw [hst] at hok
    dsimp only at hok
    have ep : p ++ w = s := stripTrailing_append hst
    have hnlp : '\n' ∉ p := stripTrailing_some_no_nl hst
    have hsl : stripLine s = p := by unfold stripLine; rw [hst]
    have hb := buildFullLine_parseMain { initLine s ff with line := p, rightSpace := w }
      rfl rfl rfl rfl rfl rfl rfl rfl rfl rfl rfl (by exact hnlp)
      (by
        intro hf
        have := hfix hf
        rw [hsl] at this
        exact this)
      (parseLine (initLine s ff)) hok
    simpa [ep] using hb

/-! ### Continuation analysis -/

/-- Default record used with `List.getD` in statements about line
sequences. -/
def blankLine : CodeLine := initLine [] true

theorem contiAux_length (ls : List CodeLine) : (contiAux ls).1.length = ls.length := by
  induction ls with
  | nil => rfl
  | cons c cs ih => simp [contiAux, ih]

theorem identifyContinuations_length (ls : List CodeLine) :
    (identifyContinuations ls).length = ls.length :=
  contiAux_length ls

theorem contiAux_pending (ls : List CodeLine) :
    (contiAux ls).2 = true ↔
      ∃ j, j < ls.length ∧ (ls.getD j blankLine).isContinuation = true ∧
        ∀ k, k < j → (ls.getD k blankLine).hasCode = false := by
  induction ls with
  | nil => simp [contiAux]
  | cons c cs ih =>
    have hstep : (contiAux (c :: cs)).2 =
        (if c.hasCode && (contiAux cs).2 then false else (contiAux cs).2).or c.isContinuation := by
      show (identifyStep (contiAux cs).2 c).2 = _
      unfold identifyStep
      dsimp only
      by_cases h1 : c.hasCode && (contiAux cs).2
      · rw [if_pos h1, if_pos h1]
        cases hic : c.isContinuation <;> simp [hic]
      · rw [if_neg h1, if_neg h1]
        cases hic : c.isContinuation <;> simp [hic]
    rw [hstep]
    cases hic : c.isContinuation with
    | true =>
      simp only [Bool.or_true, true_iff]
      exact ⟨0, by simp, by simpa using hic, fun k hk => absurd hk (by omega)⟩
    | false =>
      simp only [Bool.or_false]
      cases hhc : c.hasCode with
      | true =>
        constructor
        · intro hval
          exfalso
          by_cases hP : (contiAux cs).2 = true
          · rw [if_pos (by simp [hhc, hP])] at hval
            exact absurd hval (by simp)
          · rw [if_neg (by simp [Bool.eq_false_iff.mpr hP])] at hval
            exact hP hval
        · rintro ⟨j, hj, hcont, hall⟩
          cases j with
          | zero => rw [List.getD_cons_zero] at hcont; rw [hic] at hcont; exact absurd hcont (by simp)
          | succ j =>
            have := hall 0 (by omega)
            rw [List.getD_cons_zero] at this
            rw [hhc] at this
            exact absurd this (by simp)
      | false =>
        simp only [Bool.false_and]
        rw [if_neg (by simp), ih]
        constructor
        · rintro ⟨j, hj, hcont, hall⟩
          refine ⟨j + 1, by simpa using hj, by simpa using hcont, ?_⟩
          intro k hk
          cases k with
          | zero => rw [List.getD_cons_zero]; exact hhc
          | succ k =>
            rw [List.getD_cons_succ]
            exact hall k (by omega)
        · rintro ⟨j, hj, hcont, hall⟩
          cases j with
          | zero => rw [List.getD_cons_zero, hic] at hcont; exact absurd hcont (by simp)
          | succ j =>
            rw [List.getD_cons_succ] at hcont
            refine ⟨j, by simpa using hj, hcont, ?_⟩
            intro k hk
            have := hall (k + 1) (by omega)
            rw [List.getD_cons_succ] at this
            exact this

theorem identifyContinuations_getD (ls : List CodeLine) :
    ∀ i, i < ls.length →
      (identifyContinuations ls).getD i blankLine =
        (if (ls.getD i blankLine).hasCode && (contiAux (ls.drop (i + 1))).2 then
          { ls.getD i blankLine with isContinued := true }
        else ls.getD i blankLine) := by
  induction ls with
  | nil => intro i hi; exact absurd hi (by simp)
  | cons c cs ih =>
    intro i hi
    cases i with
    | zero =>
      show ((identifyStep (contiAux cs).2 c).1 :: (contiAux cs).1).getD 0 blankLine = _
      simp only [List.getD_cons_zero, List.drop_succ_cons, List.drop_zero]
      unfold identifyStep
      dsimp only
      by_cases h1 : c.hasCode && (contiAux cs).2
      · rw [if_pos h1, if_pos h1]
      · rw [if_neg h1, if_neg h1]
    | succ i =>
      show ((identifyStep (contiAux cs).2 c).1 :: (contiAux cs).1).getD (i + 1) blankLine = _
      simp only [List.getD_cons_succ, List.drop_succ_cons]
      exact ih i (by simpa using hi)

theorem getD_drop {α : Type} (ls : List α) (n k : Nat) (d : α) :
    (ls.drop n).getD k d = ls.getD (n + k) d := by
  by_cases h : n + k < ls.length
  · have h2 : k < (ls.drop n).length := by rw [List.length_drop]; omega
    rw [List.getD_eq_getElem _ _ h2, List.getD_eq_getElem _ _ h]
    exact List.getElem_drop ls
  · have h2 : (ls.drop n).length ≤ k := by rw [List.length_drop]; omega
    rw [List.getD_eq_default _ _ h2, List.getD_eq_default _ _ (by omega)]

theorem pending_drop_iff (ls : List CodeLine) (i : Nat) :
    (contiAux (ls.drop (i + 1))).2 = true ↔
      ∃ j, i < j ∧ j < ls.length ∧ (ls.getD j blankLine).isContinuation = true ∧
        ∀ k, i < k → k < j → (ls.getD k blankLine).hasCode = false := by
  rw [contiAux_pending]
  constructor
  · rintro ⟨j', hj', hcont, hall⟩
    rw [List.length_drop] at hj'
    rw [getD_drop] at hcont
    refine ⟨i + 1 + j', by omega, by omega, hcont, ?_⟩
    intro k hk1 hk2
    have hx := hall (k - (i + 1)) (by omega)
    rw [getD_drop] at hx
    have he : i + 1 + (k - (i + 1)) = k := by omega
    rwa [he] at hx
  · rintro ⟨j, hj1, hj2, hcont, hall⟩
    refine ⟨j - (i + 1), by rw [List.length_drop]; omega, ?_, ?_⟩
    · rw [getD_drop]
      have he : i + 1 + (j - (i + 1)) = j := by omega
      rwa [he]
    · intro k hk
      rw [getD_drop]
      exact hall (i + 1 + k) (by omega) (by omega)

/-- Claim C2 (amended): after `identifyContinuations` on lines whose
`isContinued` flag starts out false (as parsing produces them), a line is
marked continued exactly when it has nonempty code and some following
line carries the continuation flag with no nonempty-code line strictly
between the two. -/
theorem identifyContinuations_iff (ls : List CodeLine)
    (h0 : ∀ cl ∈ ls, cl.isContinued = false) (i : Nat) (hi : i < ls.length) :
    ((identifyContinuations ls).getD i blankLine).isContinued = true ↔
      ((ls.getD i blankLine).hasCode = true ∧
        ∃ j, i < j ∧ j < ls.length ∧ (ls.getD j blankLine).isContinuation = true ∧
          ∀ k, i < k → k < j → (ls.getD k blankLine).hasCode = false) := by
  rw [identifyContinuations_getD ls i hi]
  by_cases hcond : ((ls.getD i blankLine).hasCode && (contiAux (ls.drop (i + 1))).2) = true
  · rw [if_pos hcond]
    dsimp only
    rw [Bool.and_eq_true] at hcond
    simp only [true_iff]
    exact ⟨hcond.1, (pending_drop_iff ls i).mp hcond.2⟩
  · rw [if_neg hcond]
    have horig : (ls.getD i blankLine).isContinued = false := by
      apply h0
      rw [List.getD_eq_getElem _ _ hi]
      exact List.getElem_mem hi
    rw [horig]
    simp only [Bool.false_eq_true, false_iff]
    rintro ⟨hhc, hex⟩
    exact hcond (by rw [Bool.and_eq_true]; exact ⟨hhc, (pending_drop_iff ls i).mpr hex⟩)

/-! ### Indentation engine -/

theorem setIndentation_remarks (cl : CodeLine) (level : Int) (indent : Str) :
    (setIndentation cl level indent).remarks = cl.remarks := by
  unfold setIndentation
  split <;> rfl

theorem setIndentation_leftSpace (cl : CodeLine) (level : Int) (indent : Str) :
    (setIndentation cl level indent).leftSpace =
      (if cl.hasCode || !cl.comment.isEmpty then pyStrMul indent level else []) := by
  unfold setIndentation
  split <;> simp_all

theorem fixIndentStep_snd_nonneg (indent : Str) (contiIndent : Nat) (cur : Int)
    (cl : CodeLine) (h : 0 ≤ cur) : 0 ≤ (fixIndentStep indent contiIndent cur cl).2 := by
  unfold fixIndentStep
  dsimp only
  by_cases hd : (if cl.decreasesIndentBefore then cur - 1 else cur) < 0
  · rw [if_pos hd]
    dsimp only
    split <;> omega
  · rw [if_neg hd]
    dsimp only
    generalize hx : (if cl.decreasesIndentBefore = true then cur - 1 else cur) = x at hd
    split <;> omega

theorem fixIndentGo_snd_nonneg (indent : Str) (contiIndent : Nat) (cur : Int)
    (ls : List CodeLine) (h : 0 ≤ cur) : 0 ≤ (fixIndentGo indent contiIndent cur ls).2 := by
  induction ls generalizing cur with
  | nil => exact h
  | cons c cs ih =>
    show 0 ≤ (fixIndentGo indent contiIndent (fixIndentStep indent contiIndent cur c).2 cs).2
    exact ih _ (fixIndentStep_snd_nonneg indent contiIndent cur c h)

theorem fixIndentStep_remarks (indent : Str) (contiIndent : Nat) (cur : Int) (cl : CodeLine)
    (h : 0 ≤ cur) :
    (fixIndentStep indent contiIndent cur cl).1.remarks =
      (if cl.decreasesIndentBefore = true ∧ cur = 0 then
        cl.remarks ++ ["Negative indentation level reached."]
      else cl.remarks) := by
  unfold fixIndentStep
  dsimp only
  by_cases hd : (if cl.decreasesIndentBefore then cur - 1 else cur) < 0
  · rw [if_pos hd]
    dsimp only
    rw [setIndentation_remarks]
    dsimp only
    rw [if_pos]
    by_cases hdec : cl.decreasesIndentBefore = true
    · rw [if_pos hdec] at hd
      exact ⟨hdec, by omega⟩
    · rw [if_neg hdec] at hd
      omega
  · rw [if_neg hd]
    dsimp only
    rw [setIndentation_remarks]
    rw [if_neg]
    rintro ⟨hdec, hz⟩
    rw [if_pos hdec, hz] at hd
    omega

theorem fixIndentStep_leftSpace (indent : Str) (contiIndent : Nat) (cur : Int) (cl : CodeLine)
    (h : 0 ≤ cur) :
    (fixIndentStep indent contiIndent cur cl).1.leftSpace =
      (if cl.hasCode || !cl.comment.isEmpty then
        List.flatten (List.replicate ((writeDepth cl cur).toNat +
          (if cl.isContinuation then contiIndent else 0)) indent)
      else []) := by
  unfold fixIndentStep
  dsimp only
  by_cases hd : (if cl.decreasesIndentBefore then cur - 1 else cur) < 0
  · rw [if_pos hd]
    dsimp only
    rw [setIndentation_leftSpace]
    dsimp only
    have hw : writeDepth cl cur = 0 := by unfold writeDepth; rw [if_pos hd]
    rw [hw]
    unfold pyStrMul
    have harg : ((0 : Int) + if cl.isContinuation = true then (contiIndent : Int) else 0).toNat =
        ((0 : Nat) + if cl.isContinuation = true then contiIndent else 0) := by
      split <;> simp
    rw [harg]
    simp [CodeLine.hasCode]
  · rw [if_neg hd]
    dsimp only
    rw [setIndentation_leftSpace]
    have hw : writeDepth cl cur = (if cl.decreasesIndentBefore then cur - 1 else cur) := by
      unfold writeDepth; rw [if_neg hd]
    rw [← hw] at hd ⊢
    unfold pyStrMul
    have harg : (writeDepth cl cur + if cl.isContinuation = true then (contiIndent : Int) else 0).toNat =
        ((writeDepth cl cur).toNat + if cl.isContinuation = true then contiIndent else 0) := by
      split <;> omega
    rw [harg]

/-! ### Layout conversion, continuation verification, length swallowing -/

theorem convertFixedToFree_isFreeForm (cl : CodeLine) :
    (convertFixedToFree cl).isFreeForm = true := by
  unfold convertFixedToFree
  by_cases hff : cl.isFreeForm = true
  · rw [if_pos hff]
    exact hff
  · rw [if_neg hff]
    dsimp only
    repeat' split
    all_goals rfl

/-- Claim C5: converting a line that is already in free layout is a
no-op, and converting twice is the same as converting once (the layout
mode flips to free after the first conversion). -/
theorem convertFixedToFree_idempotent (cl : CodeLine) :
    (cl.isFreeForm = true → convertFixedToFree cl = cl) ∧
    convertFixedToFree (convertFixedToFree cl) = convertFixedToFree cl := by
  constructor
  · intro hff
    unfold convertFixedToFree
    rw [if_pos hff]
  · conv_lhs => rw [convertFixedToFree]
    rw [if_pos (convertFixedToFree_isFreeForm cl)]

/-- Witness for C5 at a concrete free-form record. -/
theorem convertFixedToFree_idempotent_witness :
    convertFixedToFree blankLine = blankLine ∧
    convertFixedToFree (convertFixedToFree blankLine) = convertFixedToFree blankLine :=
  ⟨(convertFixedToFree_idempotent blankLine).1 rfl,
   (convertFixedToFree_idempotent blankLine).2⟩

/-- Claim C10: `verifyContinuation` clears the continuation flag exactly
on lines without code, and afterwards a flagged line always has code. -/
theorem verifyContinuation_spec (cl : CodeLine) :
    verifyContinuation cl =
      (if cl.hasCode = true then cl else { cl with isContinuation := false }) ∧
    ((verifyContinuation cl).isContinuation && !(verifyContinuation cl).hasCode) = false := by
  unfold verifyContinuation
  cases hhc : cl.hasCode with
  | true => simp [hhc]
  | false => simp [hhc]

/-- Claim C6: with a nonempty trailing comment, nonempty code and a code
region grown by rewriting, `swallowLengthChange` replaces the
inter-region whitespace by `max 1 (original length - length change)`
spaces, so at least one space always remains. -/
theorem swallowLengthChange_spec (cl : CodeLine) (hcm : cl.comment ≠ [])
    (hcode : cl.hasCode = true)
    (hgrow : 0 < (cl.code.length : Int) - (cl.origCodeLength : Int)) :
    (swallowLengthChange cl).midSpace =
      List.replicate (max 1 ((cl.midSpace.length : Int) -
        ((cl.code.length : Int) - (cl.origCodeLength : Int)))).toNat ' ' ∧
    1 ≤ (swallowLengthChange cl).midSpace.length := by
  unfold swallowLengthChange
  rw [if_neg (by
    rw [not_or]
    constructor
    · simpa using hcm
    · simp [hcode])]
  dsimp only
  rw [if_neg (by omega : ¬((cl.code.length : Int) - (cl.origCodeLength : Int) = 0))]
  refine ⟨rfl, ?_⟩
  dsimp only
  rw [List.length_replicate]
  omega

/-- A record matching Scenario 4 of the specification: code grown by
three characters, two spaces of original inter-region whitespace, and a
trailing comment. -/
def swallowExample : CodeLine :=
  { blankLine with
      code := ['a', 'b', 'c', 'd']
      origCodeLength := 1
      midSpace := [' ', ' ']
      comment := ['!', 'x'] }

/-- Witness for C6: the scenario input ends with exactly one space of
inter-region whitespace. -/
theorem swallowLengthChange_spec_witness :
    (swallowLengthChange swallowExample).midSpace = [' '] ∧
    1 ≤ (swallowLengthChange swallowExample).midSpace.length := by
  have h := swallowLengthChange_spec swallowExample (by decide) (by decide) (by decide)
  exact ⟨by rw [h.1]; decide, h.2⟩

/-! ### Doxygen block restructuring -/

/-- A comment that contains exactly seventy `c` characters without being
a run of a single repeated character. -/
def doxMixed : CodeLine := { blankLine with comment := 'x' :: List.replicate 70 'c' }

/-- Counterexample to claim C8 as stated: this comment is not a run of a
single repeated marker character (it contains both `x` and `c`), yet the
line toggles the in-block state and is rewritten to a canonical
separator. -/
theorem doxygen_toggle_cex :
    (transformDoxygenLine 5 false doxMixed).1 = true ∧
    (transformDoxygenLine 5 false doxMixed).2.comment = '!' :: List.replicate 4 '-' ∧
    'x' ∈ doxMixed.comment ∧ 'c' ∈ doxMixed.comment ∧ 'x' ≠ 'c' := by decide

/-- Claim C8 (amended): in `transformDoxygenBlocks` a line toggles the
in-block state exactly when its comment region contains exactly seventy
`c` characters, and such a line is rewritten to the canonical separator
line. -/
theorem doxygen_toggle_iff (length : Nat) (b : Bool) (cl : CodeLine) :
    ((transformDoxygenLine length b cl).1 ≠ b ↔ cl.comment.count 'c' = 70) ∧
    (cl.comment.count 'c' = 70 →
      (transformDoxygenLine length b cl).2.comment = '!' :: List.replicate (length - 1) '-') := by
  unfold transformDoxygenLine
  by_cases h : cl.comment.count 'c' = 70
  · rw [if_pos h]
    refine ⟨⟨fun _ => h, fun _ => by cases b <;> simp⟩, fun _ => rfl⟩
  · rw [if_neg h]
    constructor
    · constructor
      · intro hne
        exfalso
        split at hne <;> exact hne rfl
      · intro hc
        exact absurd hc h
    · intro hc
      exact absurd hc h

/-- A full-width separator comment of seventy `c` characters. -/
def doxSeparator : CodeLine := { blankLine with comment := List.replicate 70 'c' }

/-- Witness for C8 at the separator comment. -/
theorem doxygen_toggle_iff_witness :
    (transformDoxygenLine 5 false doxSeparator).1 ≠ false ∧
    (transformDoxygenLine 5 false doxSeparator).2.comment = '!' :: List.replicate 4 '-' := by
  have h := doxygen_toggle_iff 5 false doxSeparator
  refine ⟨h.1.mpr (by decide), ?_⟩
  have h2 := h.2 (by decide)
  simpa using h2

/-- Claim C3: along `fixIndentation`, from a nonnegative running depth
every later depth stays nonnegative, the depth used when writing a line
is nonnegative, an underflow (a block-closing line at depth zero) appends
exactly one diagnostic remark and no other line touches the remarks, and
an underflow resets the written depth to zero. -/
theorem fixIndentation_depth_invariant (indent : Str) (contiIndent : Nat) :
    (∀ (cur : Int) (ls : List CodeLine), 0 ≤ cur →
        0 ≤ (fixIndentGo indent contiIndent cur ls).2) ∧
    (∀ (cur : Int) (cl : CodeLine), 0 ≤ cur →
        0 ≤ writeDepth cl cur ∧
        (fixIndentStep indent contiIndent cur cl).1.remarks =
          (if cl.decreasesIndentBefore = true ∧ cur = 0 then
            cl.remarks ++ ["Negative indentation level reached."]
          else cl.remarks) ∧
        (cl.decreasesIndentBefore = true ∧ cur = 0 → writeDepth cl cur = 0)) := by
  refine ⟨fun cur ls h => fixIndentGo_snd_nonneg indent contiIndent cur ls h,
    fun cur cl h => ⟨?_, fixIndentStep_remarks indent contiIndent cur cl h, ?_⟩⟩
  · unfold writeDepth
    dsimp only
    generalize (if cl.decreasesIndentBefore = true then cur - 1 else cur) = x
    split <;> omega
  · rintro ⟨hdec, hz⟩
    subst hz
    unfold writeDepth
    dsimp only
    rw [if_pos hdec]
    rw [if_pos (by omega : (0 : Int) - 1 < 0)]

/-- A block-closing line used to exercise the underflow case. -/
def endLine : CodeLine := { blankLine with code := ['e', 'n', 'd'] }

/-- Witness for C3 at depth zero on a block-closing line. -/
theorem fixIndentation_depth_invariant_witness :
    0 ≤ (fixIndentGo [' '] 1 0 [endLine]).2 ∧ writeDepth endLine 0 = 0 := by
  have h := fixIndentation_depth_invariant [' '] 1
  exact ⟨h.1 0 [endLine] (le_refl 0),
    (h.2 0 endLine (le_refl 0)).2.2 ⟨by decide, rfl⟩⟩

/-- Claim C9: the indentation engine writes the leading-whitespace region
as the indent unit repeated depth-plus-extra times, where the extra
indent applies only to continuation lines, and writes the empty region
when the line has neither code nor a trailing comment. -/
theorem setIndentation_written_region (indent : Str) (contiIndent : Nat) (cur : Int)
    (cl : CodeLine) (h : 0 ≤ cur) :
    (∀ level, (setIndentation cl level indent).leftSpace =
        (if cl.hasCode || !cl.comment.isEmpty then pyStrMul indent level else [])) ∧
    (fixIndentStep indent contiIndent cur cl).1.leftSpace =
      (if cl.hasCode || !cl.comment.isEmpty then
        List.flatten (List.replicate ((writeDepth cl cur).toNat +
          (if cl.isContinuation then contiIndent else 0)) indent)
      else []) :=
  ⟨fun level => setIndentation_leftSpace cl level indent,
   fixIndentStep_leftSpace indent contiIndent cur cl h⟩

/-- A continuation line with code, for the C9 witness. -/
def contLine : CodeLine := { blankLine with code := ['x'], isContinuation := true }

/-- Witness for C9: depth one plus a continuation extra of two gives
three copies of the indent unit. -/
theorem setIndentation_written_region_witness :
    (fixIndentStep [' '] 2 1 contLine).1.leftSpace = [' ', ' ', ' '] := by
  have h := (setIndentation_written_region [' '] 2 1 contLine (by omega)).2
  rw [h]
  decide

/-- Claim C7: the parser and the continuation scan run to completion on
every input: the fallible parser always returns a result, and the scan is
a total length-preserving function. -/
theorem parser_never_raises (s : Str) (ff : Bool) (ls : List CodeLine) :
    parseLineE (initLine s ff) = Except.ok (parseLine (initLine s ff)) ∧
    (identifyContinuations ls).length = ls.length :=
  ⟨parseLineE_eq_ok (initLine s ff), identifyContinuations_length ls⟩

/-! ### Fixed-form continuation marker -/

theorem parseTail_fixed_fields (cl : CodeLine) (hff : cl.isFreeForm = false) :
    (parseTail cl).fixedCont = cl.fixedCont ∧
    (parseTail cl).isContinuation = cl.isContinuation := by
  unfold parseTail
  cases h1 : wsSplit? cl.line with
  | none =>
    dsimp only
    cases h2 : matchComment cl.line with
    | none =>
      dsimp only
      rw [if_neg (by simp [hff])]
      exact ⟨rfl, rfl⟩
    | some t =>
      obtain ⟨a, m, c⟩ := t
      dsimp only
      rw [if_neg (by simp [hff])]
      exact ⟨rfl, rfl⟩
  | some p =>
    obtain ⟨w, r⟩ := p
    dsimp only
    cases h2 : matchComment r with
    | none =>
      dsimp only
      rw [if_neg (by simp [hff])]
      exact ⟨rfl, rfl⟩
    | some t =>
      obtain ⟨a, m, c⟩ := t
      dsimp only
      rw [if_neg (by simp [hff])]
      exact ⟨rfl, rfl⟩

theorem parseMain_fixed_cont (cl : CodeLine) (hff : cl.isFreeForm = false)
    (hh : ∀ c, cl.line.head? = some c →
      c ≠ '#' ∧ c ≠ 'c' ∧ c ≠ 'C' ∧ c ≠ '*' ∧ c ≠ '!' ∧ c ≠ '\t')
    (hlab : matchFixedLabel cl.line = none)
    (hlen : 5 < cl.line.length)
    (hcol : cl.line.getD 5 ' ' ≠ ' ' ∧ cl.line.getD 5 ' ' ≠ '0') :
    ∀ c, parseMain cl = Except.ok c →
      c.isContinuation = true ∧ c.fixedCont = cl.line.take 6 := by
  intro c hc
  unfold parseMain at hc
  rw [if_neg (by intro h; rw [h] at hlen; simp at hlen)] at hc
  obtain ⟨c0, hc0⟩ := lineHead_ok (l := cl.line)
    (by intro h; rw [h] at hlen; simp at hlen)
  rw [hc0] at hc
  dsimp only at hc
  have hc0head : cl.line.head? = some c0 := by
    cases hl : cl.line with
    | nil => rw [hl] at hc0; exact absurd hc0 (by simp [lineHead])
    | cons a as =>
      rw [hl] at hc0
      unfold lineHead at hc0
      injection hc0 with h'
      rw [List.head?_cons, h']
  obtain ⟨hnp, hcm1, hcm2, hcm3, hcm4, hntab⟩ := hh c0 hc0head
  rw [if_neg hnp, if_pos hff, if_neg (by simp [hcm1, hcm2, hcm3, hcm4]), hlab] at hc
  dsimp only at hc
  rw [if_pos hlen] at hc
  obtain ⟨b, hbg⟩ := lineGet_ok (l := cl.line) (i := 5) hlen
  rw [hbg] at hc
  dsimp only at hc
  have hbval : cl.line.getD 5 ' ' = b := by
    have h0 : cl.line.getD 5 ' ' = (cl.line.drop 5).getD 0 ' ' := by
      rw [getD_drop]
    unfold lineGet at hbg
    cases hd : cl.line.drop 5 with
    | nil => rw [hd] at hbg; exact absurd hbg (by simp)
    | cons x xs =>
      rw [hd] at hbg
      injection hbg with h'
      rw [h0, hd, List.getD_cons_zero]
      exact h'
  rw [if_pos ⟨hntab, hbval ▸ hcol.1, hbval ▸ hcol.2⟩] at hc
  injection hc with hc
  subst hc
  have hupd := parseTail_fixed_fields
    { cl with fixedCont := cl.line.take 6, isContinuation := true, line := cl.line.drop 6 }
    hff
  exact ⟨hupd.2, hupd.1⟩

/-- Counterexample to claim C4 as stated: this fixed-layout line is six
characters long, does not start with a tab, and its column six holds a
character that is neither blank nor `0`; yet parsing treats it as a
full-line comment (its first character is `C`), so no continuation is
recognized and the continuation-marker region stays empty. -/
theorem fixed_continuation_cex :
    6 ≤ (['C', '2', '3', '4', '5', '6'] : Str).length ∧
    (['C', '2', '3', '4', '5', '6'] : Str).getD 0 ' ' ≠ '\t' ∧
    (['C', '2', '3', '4', '5', '6'] : Str).getD 5 ' ' ≠ ' ' ∧
    (['C', '2', '3', '4', '5', '6'] : Str).getD 5 ' ' ≠ '0' ∧
    (parseLine (initLine ['C', '2', '3', '4', '5', '6'] false)).isContinuation = false ∧
    (parseLine (initLine ['C', '2', '3', '4', '5', '6'] false)).fixedCont = [] := by
  decide

/-- Claim C4 (amended): for a fixed-layout line without trailing
whitespace whose first character is neither the preprocessor marker, nor
a full-line comment marker, nor a tab, on which the statement-label
pattern fails, that is longer than five characters and whose column six
is neither blank nor `0`, parsing sets `isContinuation` and stores the
first six characters as the continuation-marker region. -/
theorem parse_fixed_continuation_amended (s : Str)
    (hnt : s.reverse.takeWhile pyIsSpace = [])
    (hh : ∀ c, s.head? = some c →
      c ≠ '#' ∧ c ≠ 'c' ∧ c ≠ 'C' ∧ c ≠ '*' ∧ c ≠ '!' ∧ c ≠ '\t')
    (hlab : matchFixedLabel s = none)
    (hlen : 5 < s.length)
    (hcol : s.getD 5 ' ' ≠ ' ' ∧ s.getD 5 ' ' ≠ '0') :
    (parseLine (initLine s false)).isContinuation = true ∧
    (parseLine (initLine s false)).fixedCont = s.take 6 := by
  have hok := parseLineE_eq_ok (initLine s false)
  unfold parseLineE at hok
  have hline_eq : (initLine s false).line = s := rfl
  rw [hline_eq] at hok
  have hst : stripTrailing s = none := by
    unfold stripTrailing
    dsimp only
    rw [if_pos (Or.inl hnt)]
  rw [hst] at hok
  dsimp only at hok
  exact parseMain_fixed_cont (initLine s false) rfl hh hlab hlen hcol
    (parseLine (initLine s false)) hok

/-- Witness for C4 at a concrete continuation line. -/
theorem parse_fixed_continuation_witness :
    (parseLine (initLine ['x', '2', '3', '4', '5', '&'] false)).isContinuation = true ∧
    (parseLine (initLine ['x', '2', '3', '4', '5', '&'] false)).fixedCont =
      (['x', '2', '3', '4', '5', '&'] : Str).take 6 := by
  exact parse_fixed_continuation_amended ['x', '2', '3', '4', '5', '&'] (by decide)
    (by decide) (by decide) (by decide) (by decide)

/-! ### Round-trip and continuation claims: counterexamples and witnesses -/

/-- Counterexample to claim C1 as stated: a fixed-layout line carrying a
statement label preceded by whitespace does not survive the parse and
rebuild round trip, because the label regular expression leaves its
whitespace prefix in no group and the source discards it. -/
theorem parse_build_roundtrip_cex :
    buildFullLine (parseLine (initLine [' ', '1', 'x'] false)) ≠ [' ', '1', 'x'] := by
  decide

/-- Witness for C1 on a fixed-layout line with leading whitespace and a
trailing comment. -/
theorem parse_build_roundtrip_witness :
    buildFullLine (parseLine (initLine "      x = 1 ! c\n".toList false)) =
      "      x = 1 ! c\n".toList := by
  exact parse_build_roundtrip "      x = 1 ! c\n".toList false (by decide)
    (fun _ => Or.inr (by decide))

/-- A blank parsed line followed by a parsed continuation line with
code. -/
def blankThenCont : List CodeLine :=
  [parseLine (initLine [' ', ' '] true), parseLine (initLine ['&', 'x'] true)]

/-- Counterexample to claim C2 as stated: the first line has no code, so
the scan never marks it continued, although a following line (which is
also the nearest following line with nonempty code) has the continuation
flag set and nothing lies strictly between the two. -/
theorem identifyContinuations_cex :
    ¬ (((identifyContinuations blankThenCont).getD 0 blankLine).isContinued = true ↔
        ∃ j, 0 < j ∧ j < blankThenCont.length ∧
          (blankThenCont.getD j blankLine).hasCode = true ∧
          (blankThenCont.getD j blankLine).isContinuation = true ∧
          ∀ k, 0 < k → k < j → (blankThenCont.getD k blankLine).hasCode = false) := by
  intro h
  have hmark : ((identifyContinuations blankThenCont).getD 0 blankLine).isContinued = true :=
    h.mpr ⟨1, by decide, by decide, by decide, by decide,
      fun k hk1 hk2 => absurd hk2 (by omega)⟩
  exact absurd hmark (by decide)

/-- A code line followed by a parsed continuation line. -/
def codeThenCont : List CodeLine :=
  [parseLine (initLine ['x'] true), parseLine (initLine ['&', 'y'] true)]

/-- Witness for C2: the first line has code and the second is a
continuation, so the scan marks the first line continued. -/
theorem identifyContinuations_iff_witness :
    ((identifyContinuations codeThenCont).getD 0 blankLine).isContinued = true := by
  have h := identifyContinuations_iff codeThenCont (by decide) 0 (by decide)
  exact h.mpr ⟨by decide, 1, by decide, by decide, by decide,
    fun k hk1 hk2 => absurd hk2 (by omega)⟩

end Fortress
